import Mathlib

/-!
Verification of the snip-rs core against its specification.

The development shallowly embeds the two source files of the repository:

* `src/main.rs` — the tokenizer (`split_words`, `strip_punctuation`),
  the snippet read path (`get_first_snip`) and identifier display
  (`split_uuid`, `list_snips`);
* `src/snip/attachment.rs` — the attachment store (`add_attachment`,
  `get_attachment_from_uuid`, `Attachment::remove`) and the fuzzy
  resolver (`search_attachment_uuid`).

Rust strings are embedded as `List Char` (with `String` wrappers),
byte vectors as `List Nat`, the SQLite `snip_attachment` table as a list
of rows with explicit rowids, and fallible operations as `Except`.
-/

namespace SnipRs

/-! ## Tokenizer (src/main.rs, lines 108-132) -/

/-- The Unicode White_Space property, by code point: U+0009-U+000D, U+0020,
U+0085, U+00A0, U+1680, U+2000-U+200A, U+2028, U+2029, U+202F, U+205F and
U+3000. This is the whitespace class of both Rust `char::is_whitespace`
(used by `str::trim`) and the regex crate's Unicode-mode `\s` used by
`split_words`, which agree on exactly this set. -/
def isWs (c : Char) : Bool :=
  (9 ≤ c.toNat && c.toNat ≤ 13) || c.toNat == 32 || c.toNat == 133 ||
    c.toNat == 160 || c.toNat == 5760 ||
    (8192 ≤ c.toNat && c.toNat ≤ 8202) || c.toNat == 8232 ||
    c.toNat == 8233 || c.toNat == 8239 || c.toNat == 8287 ||
    c.toNat == 12288

/-- The punctuation slice `chars_strip` of `strip_punctuation` (main.rs 121). -/
def charsStrip : List Char := ['.', ',', '!', '?', '"', '[', ']', '(', ')']

/-- `strip_punctuation` (main.rs 120-132): `strip_prefix` with a char-slice
pattern removes at most one leading character of the set, then
`strip_suffix` removes at most one trailing character of the set from the
result. -/
def strip_punctuation (l : List Char) : List Char :=
  let clean :=
    match l with
    | [] => l
    | c :: rest => if charsStrip.contains c then rest else l
  match clean.getLast? with
  | some c => if charsStrip.contains c then clean.dropLast else clean
  | none => clean

/-- One step of whitespace-run splitting, consumed by `List.foldr`: a
non-whitespace character extends the current piece; a whitespace character
closes the current piece unless it is already empty (collapsing runs of
whitespace into a single separator, as the regex `\s+` does). -/
def splitStep (c : Char) (acc : List (List Char)) : List (List Char) :=
  match acc with
  | [] => [[c]]
  | cur :: done =>
    if isWs c then (if cur.isEmpty then acc else [] :: acc)
    else (c :: cur) :: done

/-- Splitting on runs of whitespace, as `Regex::new(r"(?m)\s+").split` does
on an already-trimmed string (main.rs 111-112); the empty string yields a
single empty piece. -/
def splitWs (l : List Char) : List (List Char) :=
  l.foldr splitStep [[]]

/-- `s.trim_start().trim_end()` (main.rs 109). -/
def trimChars (l : List Char) : List Char :=
  (((l.dropWhile isWs).reverse.dropWhile isWs).reverse)

/-- `split_words` (main.rs 108-118) over character lists: trim, split on
whitespace runs, strip one layer of punctuation from each piece. -/
def split_words_chars (l : List Char) : List (List Char) :=
  (splitWs (trimChars l)).map strip_punctuation

/-- `split_words` (main.rs 108-118). -/
def split_words (s : String) : List String :=
  (split_words_chars s.data).map (fun w => String.mk w)

/-- Written from the specification's words, for stating the piecewise law:
the whitespace-delimited pieces of a string — each piece the maximal
whitespace-free chunk before the next run of one-or-more whitespace
characters. On trimmed input this is exactly what splitting on the regex
`\s+` produces, and the empty string gives one empty piece. -/
def specSplit (l : List Char) : List (List Char) :=
  if h : (l.dropWhile fun c => !(isWs c)) = [] then
    [l.takeWhile fun c => !(isWs c)]
  else
    (l.takeWhile fun c => !(isWs c)) ::
      specSplit (((l.dropWhile fun c => !(isWs c)).tail).dropWhile isWs)
termination_by l.length
decreasing_by
  have h1 : ((l.dropWhile fun c => !(isWs c)).tail).length <
      (l.dropWhile fun c => !(isWs c)).length := by
    cases hd : l.dropWhile fun c => !(isWs c) with
    | nil => exact absurd hd h
    | cons a t => simp
  have h2 : ((((l.dropWhile fun c => !(isWs c)).tail).dropWhile
        isWs)).length ≤ ((l.dropWhile fun c => !(isWs c)).tail).length :=
    List.Sublist.length_le (List.dropWhile_sublist isWs)
  have h3 : (l.dropWhile fun c => !(isWs c)).length ≤ l.length :=
    List.Sublist.length_le (List.dropWhile_sublist fun c => !(isWs c))
  omega

theorem specSplit_eq (l : List Char) :
    specSplit l = if (l.dropWhile fun c => !(isWs c)) = [] then
      [l.takeWhile fun c => !(isWs c)]
    else
      (l.takeWhile fun c => !(isWs c)) ::
        specSplit (((l.dropWhile fun c => !(isWs c)).tail).dropWhile isWs) := by
  conv_lhs => rw [specSplit]
  by_cases h : (l.dropWhile fun c => !(isWs c)) = []
  · simp [h]
  · simp [h]

theorem splitStep_ne_nil (c : Char) (acc : List (List Char)) :
    splitStep c acc ≠ [] := by
  cases acc with
  | nil => simp [splitStep]
  | cons cur done =>
    simp only [splitStep]
    split <;> [skip; simp]
    split <;> simp

theorem splitWs_ne_nil (l : List Char) : splitWs l ≠ [] := by
  cases l with
  | nil => simp [splitWs]
  | cons c r => exact splitStep_ne_nil c (splitWs r)

theorem dropWhile_ws_nil (l : List Char) (h : ∀ c ∈ l, isWs c = true) :
    l.dropWhile isWs = [] := by
  induction l with
  | nil => rfl
  | cons c r ih =>
    simp only [List.dropWhile_cons, h c (by simp), if_true]
    exact ih fun x hx => h x (by simp [hx])

theorem foldr_splitStep_clean (p : List Char) (hp : ∀ c ∈ p, isWs c = false)
    (cur : List Char) (done : List (List Char)) :
    p.foldr splitStep (cur :: done) = (p ++ cur) :: done := by
  induction p with
  | nil => rfl
  | cons c p ih =>
    have hc : isWs c = false := hp c (by simp)
    have hrest : ∀ x ∈ p, isWs x = false := fun x hx => hp x (by simp [hx])
    simp [List.foldr_cons, ih hrest, splitStep, hc]

theorem takeWhile_mem_sat (q : Char → Bool) (l : List Char) :
    ∀ c ∈ l.takeWhile q, q c = true := by
  induction l with
  | nil => simp
  | cons a t ih =>
    intro c hc
    cases ha : q a
    · rw [List.takeWhile_cons, ha] at hc
      simp at hc
    · rw [List.takeWhile_cons, ha] at hc
      simp at hc
      rcases hc with h1 | h1
      · rw [h1]
        exact ha
      · exact ih c h1

theorem dropWhile_head_false (q : Char → Bool) (l : List Char) :
    ∀ c ∈ (l.dropWhile q).take 1, q c = false := by
  induction l with
  | nil => simp
  | cons a t ih =>
    intro c hc
    cases ha : q a
    · rw [List.dropWhile_cons, ha] at hc
      simp at hc
      rw [hc]
      exact ha
    · rw [List.dropWhile_cons, ha] at hc
      simp only [if_true] at hc
      exact ih c (by simpa using hc)

theorem dropWhile_reverse_take (q : Char → Bool) (l : List Char)
    (h : l.dropWhile q ≠ []) :
    (l.dropWhile q).reverse.take 1 = l.reverse.take 1 := by
  induction l with
  | nil => exact absurd rfl h
  | cons a t ih =>
    cases ha : q a
    · rw [List.dropWhile_cons, ha]
      simp
    · have ht : t.dropWhile q ≠ [] := by
        rw [List.dropWhile_cons, ha] at h
        simpa using h
      have htne : t ≠ [] := by
        intro h0
        rw [h0] at ht
        exact ht rfl
      rw [List.dropWhile_cons, ha]
      simp only [if_true]
      rw [ih ht, List.reverse_cons]
      cases hr : t.reverse with
      | nil => exact absurd (List.reverse_eq_nil_iff.mp hr) htne
      | cons x r => simp

theorem take_one_append (a b : List Char) (h : a ≠ []) :
    (a ++ b).take 1 = a.take 1 := by
  cases a with
  | nil => exact absurd rfl h
  | cons x t => simp

theorem foldr_splitStep_ws (q : List Char) (qs : List (List Char))
    (hq : q ≠ []) :
    ∀ w : List Char, w ≠ [] → (∀ c ∈ w, isWs c = true) →
      w.foldr splitStep (q :: qs) = [] :: q :: qs := by
  intro w
  induction w with
  | nil => intro hw _; exact absurd rfl hw
  | cons x w2 ih =>
    intro _ hws
    have hx : isWs x = true := hws x (by simp)
    cases w2 with
    | nil =>
      have hqe : q.isEmpty = false := by
        cases q with
        | nil => exact absurd rfl hq
        | cons y ys => rfl
      simp [splitStep, hx, hqe]
    | cons y w3 =>
      have hrest := ih (by simp) fun c hc => hws c (by simp [hc])
      rw [List.foldr_cons, hrest]
      simp [splitStep, hx]

theorem splitWs_cons_head (c : Char) (l : List Char) (hc : isWs c = false) :
    ∃ q qs, splitWs (c :: l) = q :: qs ∧ q ≠ [] := by
  cases hsw : splitWs l with
  | nil => exact absurd hsw (splitWs_ne_nil l)
  | cons cur done =>
    refine ⟨c :: cur, done, ?_, by simp⟩
    show splitStep c (splitWs l) = (c :: cur) :: done
    rw [hsw]
    simp [splitStep, hc]

theorem splitWs_eq_specSplit_aux (n : Nat) : ∀ l : List Char,
    l.length ≤ n →
    (∀ c ∈ l.take 1, isWs c = false) →
    (∀ c ∈ l.reverse.take 1, isWs c = false) →
    splitWs l = specSplit l := by
  induction n with
  | zero =>
    intro l hlen _ _
    have h0 : l = [] := List.length_eq_zero.mp (Nat.le_zero.mp hlen)
    subst h0
    rw [specSplit_eq []]
    simp [splitWs]
  | succ n ih =>
    intro l hlen hh hl
    cases l with
    | nil =>
      rw [specSplit_eq []]
      simp [splitWs]
    | cons c l1 =>
      have hc : isWs c = false := hh c (by simp)
      have hsplit : ((c :: l1).takeWhile fun x => !(isWs x)) ++
          ((c :: l1).dropWhile fun x => !(isWs x)) = c :: l1 :=
        List.takeWhile_append_dropWhile _ _
      have hp_all : ∀ x ∈ (c :: l1).takeWhile fun x => !(isWs x),
          isWs x = false := by
        intro x hx
        have := takeWhile_mem_sat (fun x => !(isWs x)) (c :: l1) x hx
        simpa using this
      cases hrest : (c :: l1).dropWhile fun x => !(isWs x) with
      | nil =>
        have hl2 : c :: l1 = (c :: l1).takeWhile fun x => !(isWs x) := by
          conv_lhs => rw [← hsplit]
          rw [hrest, List.append_nil]
        rw [specSplit_eq (c :: l1), if_pos hrest]
        conv_lhs => rw [hl2]
        show ((c :: l1).takeWhile fun x => !(isWs x)).foldr splitStep [[]] = _
        rw [foldr_splitStep_clean _ hp_all [] []]
        simp
      | cons w rest2 =>
        rw [hrest] at hsplit
        have hw : isWs w = true := by
          have hhead := dropWhile_head_false (fun x => !(isWs x)) (c :: l1)
          rw [hrest] at hhead
          have := hhead w (by simp)
          simpa using this
        have hrun : rest2.takeWhile isWs ++ rest2.dropWhile isWs = rest2 :=
          List.takeWhile_append_dropWhile _ _
        have hrun_all : ∀ x ∈ rest2.takeWhile isWs, isWs x = true :=
          takeWhile_mem_sat isWs rest2
        have hne' : rest2.dropWhile isWs ≠ [] := by
          intro h0
          have hall2 : ∀ x ∈ rest2, isWs x = true :=
            fun x hx => List.dropWhile_eq_nil_iff.mp h0 x hx
          have hrev : (c :: l1).reverse = rest2.reverse ++ w ::
              ((c :: l1).takeWhile fun x => !(isWs x)).reverse := by
            conv_lhs => rw [← hsplit]
            simp
          cases hr2 : rest2.reverse with
          | nil =>
            have h1 : ((c :: l1).reverse).take 1 = [w] := by
              rw [hrev, hr2]
              simp
            have := hl w (by rw [h1]; simp)
            rw [hw] at this
            exact absurd this (by simp)
          | cons x r =>
            have hx_mem : x ∈ rest2 := by
              have hxr : x ∈ rest2.reverse := by rw [hr2]; simp
              simpa using hxr
            have hxws : isWs x = true := hall2 x hx_mem
            have h1 : ((c :: l1).reverse).take 1 = [x] := by
              rw [hrev]
              rw [take_one_append _ _ (by rw [hr2]; simp)]
              rw [hr2]
              simp
            have := hl x (by rw [h1]; simp)
            rw [hxws] at this
            exact absurd this (by simp)
        have hlenr : (rest2.dropWhile isWs).length ≤ n := by
          have hle : (rest2.dropWhile isWs).length ≤ rest2.length :=
            List.Sublist.length_le (List.dropWhile_sublist isWs)
          have hsl := congrArg List.length hsplit
          simp [List.length_append] at hsl
          have hlen2 : l1.length + 1 ≤ n + 1 := by simpa using hlen
          omega
        have hh' : ∀ x ∈ (rest2.dropWhile isWs).take 1, isWs x = false :=
          dropWhile_head_false isWs rest2
        have hl' : ∀ x ∈ (rest2.dropWhile isWs).reverse.take 1,
            isWs x = false := by
          intro x hx
          rw [dropWhile_reverse_take isWs rest2 hne'] at hx
          have hr2ne : rest2 ≠ [] := by
            intro h0
            rw [h0] at hne'
            exact hne' rfl
          have hrvne : rest2.reverse ≠ [] := by
            intro h0
            exact hr2ne (List.reverse_eq_nil_iff.mp h0)
          have hrev : (c :: l1).reverse.take 1 = rest2.reverse.take 1 := by
            conv_lhs => rw [← hsplit]
            rw [show (((c :: l1).takeWhile fun x => !(isWs x)) ++
                (w :: rest2)).reverse = rest2.reverse ++ w ::
                ((c :: l1).takeWhile fun x => !(isWs x)).reverse from by simp]
            exact take_one_append _ _ hrvne
          rw [← hrev] at hx
          exact hl x hx
        have hihr := ih (rest2.dropWhile isWs) hlenr hh' hl'
        obtain ⟨q, qs, hsq, hqne⟩ : ∃ q qs,
            splitWs (rest2.dropWhile isWs) = q :: qs ∧ q ≠ [] := by
          cases hr2' : rest2.dropWhile isWs with
          | nil => exact absurd hr2' hne'
          | cons d tail2 =>
            have hd : isWs d = false := by
              have := dropWhile_head_false isWs rest2
              rw [hr2'] at this
              exact this d (by simp)
            exact splitWs_cons_head d tail2 hd
        have hspec : specSplit (c :: l1) =
            ((c :: l1).takeWhile fun x => !(isWs x)) ::
              specSplit (rest2.dropWhile isWs) := by
          rw [specSplit_eq (c :: l1)]
          rw [if_neg (by rw [hrest]; simp)]
          rw [hrest]
          rfl
        calc splitWs (c :: l1)
            = (((c :: l1).takeWhile fun x => !(isWs x)) ++
                ((w :: rest2.takeWhile isWs) ++
                  rest2.dropWhile isWs)).foldr splitStep [[]] := by
              conv_lhs => rw [show (c :: l1) =
                ((c :: l1).takeWhile fun x => !(isWs x)) ++ (w :: rest2)
                from hsplit.symm]
              rw [show (w :: rest2 : List Char) =
                (w :: rest2.takeWhile isWs) ++ rest2.dropWhile isWs from by
                  rw [List.cons_append, hrun]]
              rfl
          _ = ((c :: l1).takeWhile fun x => !(isWs x)).foldr splitStep
                ((w :: rest2.takeWhile isWs).foldr splitStep
                  (splitWs (rest2.dropWhile isWs))) := by
              rw [List.foldr_append, List.foldr_append]
              rfl
          _ = ((c :: l1).takeWhile fun x => !(isWs x)).foldr splitStep
                ([] :: q :: qs) := by
              rw [hsq, foldr_splitStep_ws q qs hqne
                (w :: rest2.takeWhile isWs) (by simp) ?_]
              intro x hx
              rcases List.mem_cons.mp hx with h1 | h1
              · rw [h1]
                exact hw
              · exact hrun_all x h1
          _ = (((c :: l1).takeWhile fun x => !(isWs x)) ++ []) :: q :: qs := by
              rw [foldr_splitStep_clean _ hp_all [] (q :: qs)]
          _ = ((c :: l1).takeWhile fun x => !(isWs x)) ::
                splitWs (rest2.dropWhile isWs) := by
              rw [List.append_nil, hsq]
          _ = ((c :: l1).takeWhile fun x => !(isWs x)) ::
                specSplit (rest2.dropWhile isWs) := by
              rw [hihr]
          _ = specSplit (c :: l1) := hspec.symm

theorem splitWs_eq_specSplit (l : List Char)
    (hh : ∀ c ∈ l.take 1, isWs c = false)
    (hl : ∀ c ∈ l.reverse.take 1, isWs c = false) :
    splitWs l = specSplit l :=
  splitWs_eq_specSplit_aux l.length l le_rfl hh hl

theorem trimChars_head (l : List Char) :
    ∀ c ∈ (trimChars l).take 1, isWs c = false := by
  intro c hc
  unfold trimChars at hc
  by_cases hB : ((l.dropWhile isWs).reverse.dropWhile isWs) = []
  · rw [hB] at hc
    simp at hc
  · have hD := dropWhile_reverse_take isWs (l.dropWhile isWs).reverse hB
    rw [List.reverse_reverse] at hD
    rw [hD] at hc
    exact dropWhile_head_false isWs l c hc

theorem trimChars_last (l : List Char) :
    ∀ c ∈ (trimChars l).reverse.take 1, isWs c = false := by
  intro c hc
  unfold trimChars at hc
  rw [List.reverse_reverse] at hc
  exact dropWhile_head_false isWs (l.dropWhile isWs).reverse c hc

/-- C9: `split_words` never drops a piece — for every input string the
output is the `strip_punctuation` image of the whitespace-delimited pieces
of the trimmed input, exactly one token per piece, in order; and a piece
that is a lone punctuation character becomes the empty token, so empty
tokens can occur at any position of the output (witnessed mid-output by
"a ( b"). -/
theorem split_words_piecewise :
    (∀ s : String, split_words s =
      (specSplit (trimChars s.data)).map
        fun w => String.mk (strip_punctuation w)) ∧
    split_words "a ( b" = ["a", "", "b"] := by
  constructor
  · intro s
    unfold split_words split_words_chars
    rw [splitWs_eq_specSplit (trimChars s.data) (trimChars_head s.data)
      (trimChars_last s.data)]
    rw [List.map_map]
    rfl
  · decide

/-- C8: `split_words` on the empty string returns the singleton sequence
holding the empty token, likewise on whitespace-only input (which trims to
empty), and its output is never the empty sequence. -/
theorem split_words_empty_behavior :
    split_words "" = [""] ∧
    (∀ s : String, s.data.all isWs → split_words s = [""]) ∧
    (∀ s : String, split_words s ≠ []) := by
  refine ⟨by decide, ?_, ?_⟩
  · intro s h
    have hall : ∀ c ∈ s.data, isWs c = true := by
      intro c hc
      exact List.all_eq_true.mp h c hc
    have htrim : trimChars s.data = [] := by
      unfold trimChars
      rw [dropWhile_ws_nil s.data hall]
      rfl
    simp [split_words, split_words_chars, htrim, splitWs]
    rfl
  · intro s h
    have h1 : split_words_chars s.data = [] := by
      simpa [split_words] using h
    have h2 : splitWs (trimChars s.data) = [] := by
      simpa [split_words_chars] using h1
    exact splitWs_ne_nil _ h2

/-- Witness for C8: the whitespace-only branch at a concrete input. -/
theorem split_words_empty_behavior_witness :
    split_words " \n\t " = [""] ∧ split_words "x y" ≠ [] :=
  ⟨split_words_empty_behavior.2.1 " \n\t " (by decide),
   split_words_empty_behavior.2.2 "x y"⟩

/-- C4 as stated is false at the concrete input: the trailing comma of
"amet," and the trailing question mark of "line?" do not survive — the
single-strip pass removes one trailing punctuation character from every
token independently (the repository's own test in main.rs expects "amet"
and "line"). -/
theorem c4_counterexample :
    split_words "Lorem ipsum (dolor) sit amet,\nsecond line?" ≠
      ["Lorem", "ipsum", "dolor", "sit", "amet,", "second", "line?"] := by
  decide

/-- C4 amended: the token sequence is ["Lorem","ipsum","dolor","sit","amet",
"second","line"] — the parentheses of "(dolor)" and the trailing "," and "?"
are each removed by the one-strip-per-side pass. -/
theorem split_words_lorem_scenario :
    split_words "Lorem ipsum (dolor) sit amet,\nsecond line?" =
      ["Lorem", "ipsum", "dolor", "sit", "amet", "second", "line"] := by
  decide

/-! ## Identifier module

The identifiers are 128-bit UUIDs handled by the external `uuid` crate:
`Uuid::new_v4` generates, `Uuid::parse_str` / `Uuid::try_parse` parse, and
`Uuid::to_string` renders the canonical lowercase hyphenated 8-4-4-4-12
form. A `Uuid` is embedded as its list of 32 hex-digit values. The parser
is modelled on the canonical form, the only form this program ever stores
or displays (the real crate additionally accepts uppercase and alternative
layouts, which never arise from `to_string`). -/

/-- A 128-bit identifier as its 32 hexadecimal digit values. -/
abbrev Uuid := List Nat

/-- Value of a lowercase hexadecimal character, by character code
(48-57 are the digits, 97-102 are the letters a-f). -/
def hexVal? (c : Char) : Option Nat :=
  if 48 ≤ c.toNat ∧ c.toNat ≤ 57 then some (c.toNat - 48)
  else if 97 ≤ c.toNat ∧ c.toNat ≤ 102 then some (c.toNat - 87)
  else none

/-- Lowercase hexadecimal character of a digit value. -/
def nibbleChar (v : Nat) : Char :=
  if v < 10 then Char.ofNat (48 + v) else Char.ofNat (87 + v)

/-- Parse exactly `n` hexadecimal characters, returning their digit values
and the remaining characters. -/
def parseHexN : Nat → List Char → Option (List Nat × List Char)
  | 0, l => some ([], l)
  | _ + 1, [] => none
  | n + 1, c :: rest =>
    match hexVal? c, parseHexN n rest with
    | some v, some (vs, rem) => some (v :: vs, rem)
    | _, _ => none

/-- Consume the group separator of the canonical form. -/
def expectDash : List Char → Option (List Char)
  | [] => none
  | c :: rest => if c = '-' then some rest else none

/-- `Uuid::parse_str` and `Uuid::try_parse` on the canonical hyphenated
lowercase 8-4-4-4-12 form. -/
def Uuid.parse_chars (l : List Char) : Option Uuid :=
  match parseHexN 8 l with
  | none => none
  | some (g1, r1) =>
    match expectDash r1 with
    | none => none
    | some r1b =>
      match parseHexN 4 r1b with
      | none => none
      | some (g2, r2) =>
        match expectDash r2 with
        | none => none
        | some r2b =>
          match parseHexN 4 r2b with
          | none => none
          | some (g3, r3) =>
            match expectDash r3 with
            | none => none
            | some r3b =>
              match parseHexN 4 r3b with
              | none => none
              | some (g4, r4) =>
                match expectDash r4 with
                | none => none
                | some r4b =>
                  match parseHexN 12 r4b with
                  | none => none
                  | some (g5, r5) =>
                    if r5.isEmpty then some (g1 ++ g2 ++ g3 ++ g4 ++ g5)
                    else none

/-- `Uuid::parse_str` on a Rust string. -/
def Uuid.parse_str (s : String) : Option Uuid :=
  Uuid.parse_chars s.data

/-- `Uuid::to_string`: canonical lowercase hyphenated rendering. -/
def Uuid.format_chars (u : Uuid) : List Char :=
  let h := u.map nibbleChar
  h.take 8 ++ '-' ::
    ((h.drop 8).take 4 ++ '-' ::
      (((h.drop 8).drop 4).take 4 ++ '-' ::
        ((((h.drop 8).drop 4).drop 4).take 4 ++ '-' ::
          (((h.drop 8).drop 4).drop 4).drop 4)))

/-- `Uuid::to_string` as a Rust string. -/
def Uuid.format (u : Uuid) : String :=
  String.mk (Uuid.format_chars u)

/-- The invariant of every identifier produced by the uuid crate: 32 hex
digit values. -/
def UuidValid (u : Uuid) : Prop :=
  u.length = 32 ∧ ∀ v ∈ u, v < 16

instance uuidValidDecidable (u : Uuid) : Decidable (UuidValid u) := by
  unfold UuidValid
  infer_instance

theorem hexVal?_sound (c : Char) (v : Nat) (h : hexVal? c = some v) :
    nibbleChar v = c ∧ v < 16 := by
  unfold hexVal? at h
  split_ifs at h with h1 h2
  · injection h with hv
    subst hv
    refine ⟨?_, by omega⟩
    have hv10 : c.toNat - 48 < 10 := by omega
    have : 48 + (c.toNat - 48) = c.toNat := by omega
    rw [nibbleChar, if_pos hv10, this, Char.ofNat_toNat]
  · injection h with hv
    subst hv
    refine ⟨?_, by omega⟩
    have hv10 : ¬ (c.toNat - 87 < 10) := by omega
    have : 87 + (c.toNat - 87) = c.toNat := by omega
    rw [nibbleChar, if_neg hv10, this, Char.ofNat_toNat]

theorem hexVal?_nibbleChar (v : Nat) (h : v < 16) :
    hexVal? (nibbleChar v) = some v := by
  interval_cases v <;> decide

theorem parseHexN_sound (n : Nat) (l : List Char) (vs : List Nat)
    (rem : List Char) (h : parseHexN n l = some (vs, rem)) :
    l = vs.map nibbleChar ++ rem ∧ vs.length = n ∧ ∀ v ∈ vs, v < 16 := by
  induction n generalizing l vs rem with
  | zero =>
    simp [parseHexN] at h
    simp [h.1, h.2]
  | succ n ih =>
    cases l with
    | nil => simp [parseHexN] at h
    | cons c rest =>
      simp only [parseHexN] at h
      cases hc : hexVal? c with
      | none => rw [hc] at h; simp at h
      | some v =>
        cases hr : parseHexN n rest with
        | none => rw [hc, hr] at h; simp at h
        | some p =>
          obtain ⟨vs', rem'⟩ := p
          rw [hc, hr] at h
          simp at h
          obtain ⟨hv, hrem⟩ := h
          obtain ⟨hrest, hlen, hvals⟩ := ih rest vs' rem' hr
          obtain ⟨hnib, hlt⟩ := hexVal?_sound c v hc
          subst hv hrem
          refine ⟨by simp [hrest, hnib], by simp [hlen], ?_⟩
          intro x hx
          rcases List.mem_cons.mp hx with h1 | h1
          · rw [h1]; exact hlt
          · exact hvals x h1

theorem parseHexN_complete (g : List Nat) (rest : List Char)
    (h : ∀ v ∈ g, v < 16) :
    parseHexN g.length (g.map nibbleChar ++ rest) = some (g, rest) := by
  induction g with
  | nil => rfl
  | cons v g ih =>
    have hv : v < 16 := h v (by simp)
    have hg : ∀ x ∈ g, x < 16 := fun x hx => h x (by simp [hx])
    simp only [List.length_cons, List.map_cons, List.cons_append, parseHexN,
      List.append_eq, hexVal?_nibbleChar v hv, ih hg]

theorem expectDash_sound (l r : List Char) (h : expectDash l = some r) :
    l = '-' :: r := by
  cases l with
  | nil => simp [expectDash] at h
  | cons c rest =>
    simp only [expectDash] at h
    split at h
    · simp at h
      subst h
      simp_all
    · simp at h

theorem format_chars_groups (g1 g2 g3 g4 g5 : List Nat)
    (l1 : g1.length = 8) (l2 : g2.length = 4) (l3 : g3.length = 4)
    (l4 : g4.length = 4) :
    Uuid.format_chars (g1 ++ g2 ++ g3 ++ g4 ++ g5) =
      g1.map nibbleChar ++ '-' :: (g2.map nibbleChar ++ '-' ::
        (g3.map nibbleChar ++ '-' :: (g4.map nibbleChar ++ '-' ::
          g5.map nibbleChar))) := by
  have m1 : (g1.map nibbleChar).length = 8 := by simp [l1]
  have m2 : (g2.map nibbleChar).length = 4 := by simp [l2]
  have m3 : (g3.map nibbleChar).length = 4 := by simp [l3]
  have m4 : (g4.map nibbleChar).length = 4 := by simp [l4]
  unfold Uuid.format_chars
  simp only [List.map_append, List.append_assoc]
  rw [List.take_left' m1, List.drop_left' m1, List.take_left' m2,
    List.drop_left' m2, List.take_left' m3, List.drop_left' m3,
    List.take_left' m4, List.drop_left' m4]

theorem parse_chars_sound (l : List Char) (u : Uuid)
    (h : Uuid.parse_chars l = some u) :
    Uuid.format_chars u = l ∧ UuidValid u := by
  cases h1 : parseHexN 8 l with
  | none => simp [Uuid.parse_chars, h1] at h
  | some p1 =>
  obtain ⟨g1, r1⟩ := p1
  cases h2 : expectDash r1 with
  | none => simp [Uuid.parse_chars, h1, h2] at h
  | some r1b =>
  cases h3 : parseHexN 4 r1b with
  | none => simp [Uuid.parse_chars, h1, h2, h3] at h
  | some p2 =>
  obtain ⟨g2, r2⟩ := p2
  cases h4 : expectDash r2 with
  | none => simp [Uuid.parse_chars, h1, h2, h3, h4] at h
  | some r2b =>
  cases h5 : parseHexN 4 r2b with
  | none => simp [Uuid.parse_chars, h1, h2, h3, h4, h5] at h
  | some p3 =>
  obtain ⟨g3, r3⟩ := p3
  cases h6 : expectDash r3 with
  | none => simp [Uuid.parse_chars, h1, h2, h3, h4, h5, h6] at h
  | some r3b =>
  cases h7 : parseHexN 4 r3b with
  | none => simp [Uuid.parse_chars, h1, h2, h3, h4, h5, h6, h7] at h
  | some p4 =>
  obtain ⟨g4, r4⟩ := p4
  cases h8 : expectDash r4 with
  | none => simp [Uuid.parse_chars, h1, h2, h3, h4, h5, h6, h7, h8] at h
  | some r4b =>
  cases h9 : parseHexN 12 r4b with
  | none => simp [Uuid.parse_chars, h1, h2, h3, h4, h5, h6, h7, h8, h9] at h
  | some p5 =>
  obtain ⟨g5, r5⟩ := p5
  cases r5 with
  | cons c cr =>
    simp [Uuid.parse_chars, h1, h2, h3, h4, h5, h6, h7, h8, h9] at h
  | nil =>
  have hu : u = g1 ++ g2 ++ g3 ++ g4 ++ g5 := by
    simp [Uuid.parse_chars, h1, h2, h3, h4, h5, h6, h7, h8, h9] at h
    rw [← h]
    simp [List.append_assoc]
  obtain ⟨e1, n1, v1⟩ := parseHexN_sound 8 l g1 r1 h1
  obtain ⟨e3, n3, v3⟩ := parseHexN_sound 4 r1b g2 r2 h3
  obtain ⟨e5, n5, v5⟩ := parseHexN_sound 4 r2b g3 r3 h5
  obtain ⟨e7, n7, v7⟩ := parseHexN_sound 4 r3b g4 r4 h7
  obtain ⟨e9, n9, v9⟩ := parseHexN_sound 12 r4b g5 [] h9
  have d2 := expectDash_sound r1 r1b h2
  have d4 := expectDash_sound r2 r2b h4
  have d6 := expectDash_sound r3 r3b h6
  have d8 := expectDash_sound r4 r4b h8
  constructor
  · rw [hu, format_chars_groups g1 g2 g3 g4 g5 n1 n3 n5 n7]
    rw [e1, d2, e3, d4, e5, d6, e7, d8, e9]
    simp
  · constructor
    · rw [hu]
      simp [List.length_append, n1, n3, n5, n7, n9]
    · intro v hv
      rw [hu] at hv
      simp only [List.mem_append] at hv
      rcases hv with ((((hv | hv) | hv) | hv) | hv)
      · exact v1 v hv
      · exact v3 v hv
      · exact v5 v hv
      · exact v7 v hv
      · exact v9 v hv

theorem parse_chars_format_groups (g1 g2 g3 g4 g5 : List Nat)
    (l1 : g1.length = 8) (l2 : g2.length = 4) (l3 : g3.length = 4)
    (l4 : g4.length = 4) (l5 : g5.length = 12)
    (v1 : ∀ v ∈ g1, v < 16) (v2 : ∀ v ∈ g2, v < 16)
    (v3 : ∀ v ∈ g3, v < 16) (v4 : ∀ v ∈ g4, v < 16)
    (v5 : ∀ v ∈ g5, v < 16) :
    Uuid.parse_chars (Uuid.format_chars (g1 ++ g2 ++ g3 ++ g4 ++ g5)) =
      some (g1 ++ g2 ++ g3 ++ g4 ++ g5) := by
  rw [format_chars_groups g1 g2 g3 g4 g5 l1 l2 l3 l4]
  have p1 := parseHexN_complete g1 ('-' :: (g2.map nibbleChar ++ '-' ::
    (g3.map nibbleChar ++ '-' :: (g4.map nibbleChar ++ '-' ::
      g5.map nibbleChar)))) v1
  rw [l1] at p1
  have p2 := parseHexN_complete g2 ('-' :: (g3.map nibbleChar ++ '-' ::
    (g4.map nibbleChar ++ '-' :: g5.map nibbleChar))) v2
  rw [l2] at p2
  have p3 := parseHexN_complete g3 ('-' :: (g4.map nibbleChar ++ '-' ::
    g5.map nibbleChar)) v3
  rw [l3] at p3
  have p4 := parseHexN_complete g4 ('-' :: g5.map nibbleChar) v4
  rw [l4] at p4
  have p5 := parseHexN_complete g5 [] v5
  rw [l5] at p5
  simp only [List.append_nil] at p5
  simp [Uuid.parse_chars, p1, p2, p3, p4, p5, expectDash]

theorem parse_chars_format (u : Uuid) (hu : UuidValid u) :
    Uuid.parse_chars (Uuid.format_chars u) = some u := by
  obtain ⟨hlen, hvals⟩ := hu
  have e0 : u.take 8 ++ u.drop 8 = u := List.take_append_drop 8 u
  have e1 : (u.drop 8).take 4 ++ (u.drop 8).drop 4 = u.drop 8 :=
    List.take_append_drop 4 (u.drop 8)
  have e2 : ((u.drop 8).drop 4).take 4 ++ ((u.drop 8).drop 4).drop 4 =
      (u.drop 8).drop 4 := List.take_append_drop 4 ((u.drop 8).drop 4)
  have e3 : (((u.drop 8).drop 4).drop 4).take 4 ++
      (((u.drop 8).drop 4).drop 4).drop 4 = ((u.drop 8).drop 4).drop 4 :=
    List.take_append_drop 4 (((u.drop 8).drop 4).drop 4)
  have hdec : u.take 8 ++ (u.drop 8).take 4 ++ ((u.drop 8).drop 4).take 4 ++
      (((u.drop 8).drop 4).drop 4).take 4 ++
      (((u.drop 8).drop 4).drop 4).drop 4 = u := by
    calc u.take 8 ++ (u.drop 8).take 4 ++ ((u.drop 8).drop 4).take 4 ++
        (((u.drop 8).drop 4).drop 4).take 4 ++
        (((u.drop 8).drop 4).drop 4).drop 4
        = u.take 8 ++ ((u.drop 8).take 4 ++ (((u.drop 8).drop 4).take 4 ++
          ((((u.drop 8).drop 4).drop 4).take 4 ++
            (((u.drop 8).drop 4).drop 4).drop 4))) := by
          simp [List.append_assoc]
      _ = u := by rw [e3, e2, e1, e0]
  rw [← hdec]
  have t1 : (u.take 8).length = 8 := by
    simp [List.length_take, hlen]
  have t2 : ((u.drop 8).take 4).length = 4 := by
    simp [List.length_take, List.length_drop, hlen]
  have t3 : (((u.drop 8).drop 4).take 4).length = 4 := by
    simp [List.length_take, List.length_drop, hlen]
  have t4 : ((((u.drop 8).drop 4).drop 4).take 4).length = 4 := by
    simp [List.length_take, List.length_drop, hlen]
  have t5 : ((((u.drop 8).drop 4).drop 4).drop 4).length = 12 := by
    simp [List.length_drop, hlen]
  apply parse_chars_format_groups _ _ _ _ _ t1 t2 t3 t4 t5
  · exact fun v hv => hvals v (List.take_subset _ _ hv)
  · exact fun v hv => hvals v (List.drop_subset _ _ (List.take_subset _ _ hv))
  · exact fun v hv => hvals v
      (List.drop_subset _ _ (List.drop_subset _ _ (List.take_subset _ _ hv)))
  · exact fun v hv => hvals v (List.drop_subset _ _ (List.drop_subset _ _
      (List.drop_subset _ _ (List.take_subset _ _ hv))))
  · exact fun v hv => hvals v (List.drop_subset _ _ (List.drop_subset _ _
      (List.drop_subset _ _ (List.drop_subset _ _ hv))))

/-- C5: identifier round-trip law — for every string accepted by the
canonical-form identifier parser, formatting the parsed identifier with
`Uuid::to_string` yields the string back. -/
theorem uuid_round_trip (s : String) (u : Uuid)
    (h : Uuid.parse_str s = some u) : Uuid.format u = s := by
  have hs := parse_chars_sound s.data u h
  unfold Uuid.format
  rw [hs.1]

/-- Witness for C5 at the concrete canonical identifier of the spec's
resolver scenario. -/
theorem uuid_round_trip_witness :
    Uuid.format [9, 12, 15, 12, 5, 10, 2, 13, 2, 9, 4, 6, 4, 8, 14, 14,
        8, 2, 14, 0, 2, 2, 7, 11, 10, 4, 11, 12, 13, 11, 13, 5] =
      "9cfc5a2d-2946-48ee-82e0-227ba4bcdbd5" :=
  uuid_round_trip "9cfc5a2d-2946-48ee-82e0-227ba4bcdbd5"
    [9, 12, 15, 12, 5, 10, 2, 13, 2, 9, 4, 6, 4, 8, 14, 14,
      8, 2, 14, 0, 2, 2, 7, 11, 10, 4, 11, 12, 13, 11, 13, 5] (by decide)

/-! ## Fuzzy matching: the SQL LIKE predicate

`search_attachment_uuid` (attachment.rs 143-150) filters with the SQL
predicate `uuid LIKE :id` where `:id` is `"%" + id_partial + "%"`.
SQLite's LIKE operator (default build, no ESCAPE clause) matches `%`
against any sequence of characters, `_` against exactly one character,
and compares every other character ASCII-case-insensitively. -/

/-- ASCII lowercasing, which SQLite LIKE applies to both operands. -/
def asciiLower (c : Char) : Char :=
  if 65 ≤ c.toNat ∧ c.toNat ≤ 90 then Char.ofNat (c.toNat + 32) else c

/-- SQLite LIKE pattern matching: `%` matches any sequence (tried at every
split point of the remaining text), `_` matches exactly one character, any
other pattern character matches one text character up to ASCII case. -/
def likeMatch : List Char → List Char → Bool
  | [], s => s.isEmpty
  | p :: ps, s =>
    if p = '%' then
      (List.range (s.length + 1)).any fun i => likeMatch ps (s.drop i)
    else
      match s with
      | [] => false
      | c :: s2 =>
        if p = '_' then likeMatch ps s2
        else asciiLower p == asciiLower c && likeMatch ps s2

/-- The row filter of `search_attachment_uuid`: SQL `uuid LIKE :id` with
`:id = "%" + id_partial + "%"` (attachment.rs 144-146). -/
def likeFuzzy (idPart : String) (s : String) : Bool :=
  likeMatch ('%' :: idPart.data ++ ['%']) s.data

/-- Written from the specification's words, for comparison with the code's
LIKE filter: the partial occurs as a contiguous substring anywhere in the
canonical string form. -/
def substringOf (p s : List Char) : Bool :=
  (List.range (s.length + 1)).any fun i => p.isPrefixOf (s.drop i)

theorem likeMatch_trailing (p : List Char)
    (hw : ∀ c ∈ p, c ≠ '%' ∧ c ≠ '_')
    (hlp : ∀ c ∈ p, asciiLower c = c) :
    ∀ t : List Char, (∀ c ∈ t, asciiLower c = c) →
      likeMatch (p ++ ['%']) t = p.isPrefixOf t := by
  induction p with
  | nil =>
    intro t _
    simp only [List.nil_append, likeMatch, List.isPrefixOf, if_true]
    refine (List.any_eq_true).mpr ⟨t.length, ?_, ?_⟩
    · simp
    · simp
  | cons a p ih =>
    intro t hlt
    have ha := hw a (by simp)
    have hla : asciiLower a = a := hlp a (by simp)
    have hwp : ∀ c ∈ p, c ≠ '%' ∧ c ≠ '_' := fun c hc => hw c (by simp [hc])
    have hlpp : ∀ c ∈ p, asciiLower c = c := fun c hc => hlp c (by simp [hc])
    cases t with
    | nil =>
      simp only [List.cons_append, likeMatch, if_neg ha.1]
      cases p <;> simp [List.isPrefixOf]
    | cons c t2 =>
      have hlc : asciiLower c = c := hlt c (by simp)
      have hlt2 : ∀ x ∈ t2, asciiLower x = x := fun x hx => hlt x (by simp [hx])
      simp only [List.cons_append, likeMatch, if_neg ha.1, if_neg ha.2,
        List.isPrefixOf, List.append_eq, hla, hlc]
      rw [ih hwp hlpp t2 hlt2]

theorem likeFuzzy_eq_substring (p s : List Char)
    (hw : ∀ c ∈ p, c ≠ '%' ∧ c ≠ '_')
    (hlp : ∀ c ∈ p, asciiLower c = c)
    (hls : ∀ c ∈ s, asciiLower c = c) :
    likeMatch ('%' :: p ++ ['%']) s = substringOf p s := by
  have hcons : ('%' :: p) ++ ['%'] = '%' :: (p ++ ['%']) := rfl
  rw [hcons]
  simp only [likeMatch, if_true, substringOf]
  congr 1
  funext i
  exact likeMatch_trailing p hw hlp (s.drop i)
    fun c hc => hls c (List.drop_subset _ _ hc)

/-! ## The attachment store (src/snip/attachment.rs)

The SQLite `snip_attachment` table is embedded as its rows in scan
(insertion) order, each carrying its SQLite rowid; the `data` column holds
the blob bytes. Rust's `Box<dyn Error>` results are embedded as `Except`
over a closed sum of the error values this code can produce. -/

/-- Modelled from the spec (section 7) and the uses in attachment.rs: the
`SnipError` enum is declared in the repository's `snip` module, whose own
file is not among the sources. `General` carries the spec's StorageError,
`UuidNotFound` its NotFound, `UuidMultipleMatches` its MultipleMatches;
`Io`, `UuidParse` and `TimestampParse` stand for the boxed external error
values (std::io::Error, uuid::Error, chrono::ParseError) the code
propagates as `Box<dyn Error>`. -/
inductive SnipError where
  | General (msg : String)
  | UuidNotFound (msg : String)
  | UuidMultipleMatches (msg : String)
  | Io (msg : String)
  | UuidParse
  | TimestampParse
deriving DecidableEq

/-- One row of the `snip_attachment` table
(columns of the INSERT at attachment.rs 87). -/
structure Row where
  rowid : Nat
  uuid : String
  snip_uuid : String
  timestamp : String
  name : String
  data : List Nat
  size : Nat
deriving DecidableEq

/-- The `snip_attachment` table: rows in scan order plus the next fresh
rowid (SQLite rowids of freshly inserted rows exceed all live ones in this
model; `DBWf` states it). -/
structure DB where
  rows : List Row
  nextRowid : Nat
deriving DecidableEq

/-- Rowids of live rows lie below the next fresh rowid. -/
def DBWf (db : DB) : Prop :=
  ∀ r ∈ db.rows, r.rowid < db.nextRowid

instance dbwfDecidable (db : DB) : Decidable (DBWf db) := by
  unfold DBWf
  infer_instance

/-- The `Attachment` struct (attachment.rs 11-18); the parsed timestamp is
abstracted to the value an RFC 3339 parser returns. -/
structure Attachment where
  uuid : Uuid
  snip_uuid : Uuid
  timestamp : Nat
  name : String
  data : List Nat
  size : Nat
deriving DecidableEq

/-- `Blob::write_at` on the `data` column: write `buf` into the blob at
`offset`; SQLite reports an error if the write would run past the end of
the pre-sized blob. -/
def blob_write_at (data buf : List Nat) (offset : Nat) : Option (List Nat) :=
  if offset + buf.length ≤ data.length then
    some (data.take offset ++ buf ++ data.drop (offset + buf.length))
  else none

/-- `conn.blob_open(..., row_id, false)` followed by `write_at`
(attachment.rs 96-98): locate the row by rowid and overwrite part of its
blob in place. -/
def db_blob_write (db : DB) (row_id : Nat) (buf : List Nat) (offset : Nat) :
    Option DB :=
  match db.rows.find? (fun r => r.rowid == row_id) with
  | none => none
  | some r =>
    match blob_write_at r.data buf offset with
    | none => none
    | some d =>
      some { db with rows := db.rows.map fun r2 =>
        if r2.rowid == row_id then { r2 with data := d } else r2 }

/-- `add_attachment` (attachment.rs 65-100). The nondeterministic inputs are
parameters: `u` is the `Uuid::new_v4()` value, `ts` the `to_rfc3339()` text
of the current time, `fileName?` the `path.file_name()` result and
`fileData?` the `std::fs::read(path)` result (`none` embeds a read failure).
The row is inserted with `ZEROBLOB(size)` as payload, then the bytes are
written into the placeholder at offset 0 via the rowid of the insert
(`last_insert_rowid`). The `assert_eq!(result, 1)` of the source cannot fire
(a successful single-row INSERT affects one row) and is not modelled.
Besides the `Except` outcome the embedding returns the list of database
statements executed, in order, so that statement-free failures are
visible. -/
def add_attachment (snipU : Uuid) (fileName? : Option String)
    (fileData? : Option (List Nat)) (u : Uuid) (ts : String) (db : DB) :
    Except SnipError DB × List String :=
  match fileName? with
  | none => (.error (.General "parsing attachment basename"), [])
  | some name =>
    match fileData? with
    | none => (.error (.Io "reading attachment file"), [])
    | some data =>
      let size := data.length
      let row : Row :=
        { rowid := db.nextRowid, uuid := Uuid.format u,
          snip_uuid := Uuid.format snipU, timestamp := ts, name := name,
          data := List.replicate size 0, size := size }
      let db1 : DB :=
        { rows := db.rows ++ [row], nextRowid := db.nextRowid + 1 }
      match db_blob_write db1 db.nextRowid data 0 with
      | none => (.error (.General "blob write failed"), ["INSERT"])
      | some db2 => (.ok db2, ["INSERT", "BLOB_WRITE"])

/-- `attachment_data_from_db` (attachment.rs 33-40): open the blob of the
row with the given rowid and read it to the end. -/
def attachment_data_from_db (db : DB) (row_id : Nat) :
    Except SnipError (List Nat) :=
  match db.rows.find? (fun r => r.rowid == row_id) with
  | none => .error (.General "blob open failed")
  | some r => .ok r.data

/-- `attachment_from_db` (attachment.rs 42-62): parse the stored uuid,
snip_uuid and timestamp strings, every failure propagated with `?` as a
recoverable error. `rfc` abstracts `DateTime::parse_from_rfc3339`. -/
def attachment_from_db (rfc : String → Option Nat)
    (uuid snipU ts name : String) (size : Nat) (data : List Nat) :
    Except SnipError Attachment :=
  match Uuid.parse_str uuid with
  | none => .error .UuidParse
  | some pu =>
    match Uuid.parse_str snipU with
    | none => .error .UuidParse
    | some psu =>
      match rfc ts with
      | none => .error .TimestampParse
      | some t =>
        .ok { uuid := pu, snip_uuid := psu, timestamp := t, name := name,
              data := data, size := size }

/-- `get_attachment_from_uuid` (attachment.rs 103-126): select the rows
whose `uuid` column equals `id.to_string()`; for the first such row read
the blob via the row's rowid and build the `Attachment`; with no matching
row fail with `UuidNotFound`. -/
def get_attachment_from_uuid (rfc : String → Option Nat) (db : DB)
    (id : Uuid) : Except SnipError Attachment :=
  match db.rows.filter (fun r => r.uuid == Uuid.format id) with
  | [] => .error (.UuidNotFound "could not find uuid")
  | r :: _ =>
    match attachment_data_from_db db r.rowid with
    | .error e => .error e
    | .ok data =>
      attachment_from_db rfc r.uuid r.snip_uuid r.timestamp r.name r.size data

/-- `Attachment::remove` (attachment.rs 22-29): DELETE the rows whose
`uuid` column equals the attachment's uuid string, then require the
affected-row count to be exactly 1. -/
def Attachment.remove (a : Attachment) (db : DB) : Except SnipError DB :=
  let remaining := db.rows.filter fun r => !(r.uuid == Uuid.format a.uuid)
  let rows_affected := db.rows.length - remaining.length
  if rows_affected = 1 then .ok { db with rows := remaining }
  else .error (.General
    ("expected 1 row affected, got " ++ toString rows_affected))

/-- The rows retrieved by the resolver's query `SELECT uuid from
snip_attachment WHERE uuid LIKE :id LIMIT 2` (attachment.rs 144-146). -/
def search_query (db : DB) (idPart : String) : List String :=
  ((db.rows.filter fun r => likeFuzzy idPart r.uuid).map fun r => r.uuid).take 2

/-- `search_attachment_uuid` (attachment.rs 143-169): run the LIMIT-2 fuzzy
query; a second candidate fails with `UuidMultipleMatches` naming the
partial; a single nonempty candidate is parsed and returned; anything else
fails with `UuidNotFound` naming the partial. -/
def search_attachment_uuid (db : DB) (idPart : String) :
    Except SnipError Uuid :=
  match search_query db idPart with
  | [] => .error (.UuidNotFound
      ("attachment uuid not found using partial " ++ idPart))
  | [id_str] =>
    if id_str.data.isEmpty then
      .error (.UuidNotFound
        ("attachment uuid not found using partial " ++ idPart))
    else
      match Uuid.parse_str id_str with
      | some v => .ok v
      | none => .error .UuidParse
  | _ => .error (.UuidMultipleMatches
      ("provided partial " ++ idPart ++ " returned multiple attachment uuids"))

/-- The number of rows holding a given uuid string. -/
def countUuid (db : DB) (s : String) : Nat :=
  (db.rows.filter fun r => r.uuid == s).length

/-! ## The snippet read path (src/main.rs) -/

/-- The canonical identifier of the spec's resolver scenario. -/
def uuidStr0 : String := "9cfc5a2d-2946-48ee-82e0-227ba4bcdbd5"

/-- The hex digit values of `uuidStr0`. -/
def uuidVal0 : Uuid :=
  [9, 12, 15, 12, 5, 10, 2, 13, 2, 9, 4, 6, 4, 8, 14, 14,
   8, 2, 14, 0, 2, 2, 7, 11, 10, 4, 11, 12, 13, 11, 13, 5]

/-- One stored attachment row carrying `uuidStr0` and a timestamp no RFC
3339 parser accepts. -/
def row0 : Row :=
  { rowid := 1, uuid := uuidStr0, snip_uuid := uuidStr0,
    timestamp := "not-a-timestamp", name := "udhr.pdf",
    data := [1, 2, 3], size := 3 }

/-- A table holding only `row0`. -/
def db0 : DB := { rows := [row0], nextRowid := 2 }

/-! ## Helper lemmas on lists of rows -/

theorem filter_partition_length (l : List Row) (p : Row → Bool) :
    (l.filter p).length + (l.filter fun r => !(p r)).length = l.length := by
  induction l with
  | nil => rfl
  | cons r l ih => cases hp : p r <;> simp [List.filter_cons, hp] <;> omega

theorem filter_false_of (l : List Row) (p : Row → Bool)
    (h : ∀ x ∈ l, p x = false) : l.filter p = [] := by
  induction l with
  | nil => rfl
  | cons a l ih =>
    rw [List.filter_cons_of_neg (by simp [h a (by simp)])]
    exact ih fun x hx => h x (by simp [hx])

theorem find?_append_of_none (l1 l2 : List Row) (p : Row → Bool)
    (h : ∀ x ∈ l1, p x = false) : (l1 ++ l2).find? p = l2.find? p := by
  induction l1 with
  | nil => rfl
  | cons a l ih =>
    have ha : p a = false := h a (by simp)
    rw [List.cons_append]
    have hstep : List.find? p (a :: (l ++ l2)) = List.find? p (l ++ l2) := by
      simp [List.find?_cons, ha]
    rw [hstep]
    exact ih fun x hx => h x (by simp [hx])

theorem map_eq_self (l : List Row) (f : Row → Row)
    (h : ∀ x ∈ l, f x = x) : l.map f = l := by
  induction l with
  | nil => rfl
  | cons a l ih =>
    rw [List.map_cons, h a (by simp)]
    rw [ih fun x hx => h x (by simp [hx])]

/-! ## C10, C6, C7 -/

/-- C10: in `add_attachment` the base-name extraction and the full file
read precede every database statement, so a missing final path component
or an unreadable file yields an error with an empty statement trace — the
attachment table is untouched. -/
theorem add_attachment_early_failure :
    (∀ (snipU u : Uuid) (d : Option (List Nat)) (ts : String) (db : DB),
      (add_attachment snipU none d u ts db).1 =
          .error (.General "parsing attachment basename") ∧
        (add_attachment snipU none d u ts db).2 = []) ∧
    (∀ (snipU u : Uuid) (n ts : String) (db : DB),
      (add_attachment snipU (some n) none u ts db).1 =
          .error (.Io "reading attachment file") ∧
        (add_attachment snipU (some n) none u ts db).2 = []) := by
  exact ⟨fun _ _ _ _ _ => ⟨rfl, rfl⟩, fun _ _ _ _ _ => ⟨rfl, rfl⟩⟩

/-- C6: `Attachment::remove` succeeds exactly when the affected-row count
of the DELETE is 1, and any other count — in particular 0, when the
identifier is absent — is turned into the reported `General` (the spec's
StorageError) failure rather than silent success. -/
theorem remove_rowcount (a : Attachment) (db : DB) :
    ((∃ db2, Attachment.remove a db = .ok db2) ↔
      countUuid db (Uuid.format a.uuid) = 1) ∧
    (countUuid db (Uuid.format a.uuid) ≠ 1 →
      ∃ msg, Attachment.remove a db = .error (.General msg)) := by
  have hpart := filter_partition_length db.rows
    (fun r => r.uuid == Uuid.format a.uuid)
  have hcnt : db.rows.length -
      (db.rows.filter fun r => !(r.uuid == Uuid.format a.uuid)).length =
      countUuid db (Uuid.format a.uuid) := by
    unfold countUuid
    omega
  have hrm : Attachment.remove a db =
      if countUuid db (Uuid.format a.uuid) = 1 then
        .ok { db with
          rows := db.rows.filter fun r => !(r.uuid == Uuid.format a.uuid) }
      else .error (.General ("expected 1 row affected, got " ++
        toString (countUuid db (Uuid.format a.uuid)))) := by
    unfold Attachment.remove
    simp only [hcnt]
  constructor
  · constructor
    · rintro ⟨db2, h⟩
      rw [hrm] at h
      by_cases hc : countUuid db (Uuid.format a.uuid) = 1
      · exact hc
      · rw [if_neg hc] at h
        exact absurd h (by simp)
    · intro h1
      exact ⟨_, by rw [hrm, if_pos h1]⟩
  · intro hne
    exact ⟨_, by rw [hrm, if_neg hne]⟩

/-- An in-memory attachment value used to witness removal of an absent
identifier. -/
def attC6 : Attachment :=
  { uuid := List.replicate 32 0, snip_uuid := List.replicate 32 0,
    timestamp := 0, name := "f", data := [], size := 0 }

/-- Witness for C6: removing an attachment from an empty table reports the
row-count failure. -/
theorem remove_rowcount_witness :
    ∃ msg, Attachment.remove attC6 { rows := [], nextRowid := 1 } =
      .error (.General msg) :=
  (remove_rowcount attC6 { rows := [], nextRowid := 1 }).2 (by decide)

theorem format_data_eq (u : Uuid) : (Uuid.format u).data = Uuid.format_chars u :=
  rfl

theorem format_chars_ne_nil (u : Uuid) : Uuid.format_chars u ≠ [] := by
  unfold Uuid.format_chars
  cases (u.map nibbleChar).take 8 <;> simp

/-- C2: resolver outcome trichotomy over any stored collection whose uuid
column holds parseable identifiers — zero LIKE matches fail with
`UuidNotFound`, exactly one match returns the identifier whose canonical
form is the matched row's uuid string, two or more matches fail with
`UuidMultipleMatches` carrying the offending partial, and the underlying
LIMIT-2 query never retrieves more than 2 candidates. -/
theorem search_trichotomy (db : DB) (idPart : String)
    (hvalid : ∀ r ∈ db.rows, ∃ u, Uuid.parse_str r.uuid = some u) :
    ((db.rows.filter fun r => likeFuzzy idPart r.uuid) = [] →
      search_attachment_uuid db idPart = .error (.UuidNotFound
        ("attachment uuid not found using partial " ++ idPart))) ∧
    (∀ row, (db.rows.filter fun r => likeFuzzy idPart r.uuid) = [row] →
      ∃ u, search_attachment_uuid db idPart = .ok u ∧
        Uuid.format u = row.uuid) ∧
    (2 ≤ ((db.rows.filter fun r => likeFuzzy idPart r.uuid)).length →
      search_attachment_uuid db idPart = .error (.UuidMultipleMatches
        ("provided partial " ++ idPart ++ " returned multiple attachment uuids"))) ∧
    (search_query db idPart).length ≤ 2 := by
  refine ⟨?_, ?_, ?_, ?_⟩
  · intro h
    unfold search_attachment_uuid search_query
    rw [h]
    rfl
  · intro row h
    have hmem : row ∈ db.rows := by
      have hf : row ∈ db.rows.filter fun r => likeFuzzy idPart r.uuid := by
        rw [h]
        simp
      exact List.mem_of_mem_filter hf
    obtain ⟨u, hu⟩ := hvalid row hmem
    have hu2 : Uuid.parse_chars row.uuid.data = some u := hu
    have hfmt : Uuid.format_chars u = row.uuid.data :=
      (parse_chars_sound row.uuid.data u hu2).1
    have hne : row.uuid.data.isEmpty = false := by
      rw [← hfmt]
      cases hc : Uuid.format_chars u with
      | nil => exact absurd hc (format_chars_ne_nil u)
      | cons c l => simp
    refine ⟨u, ?_, ?_⟩
    · unfold search_attachment_uuid search_query
      rw [h]
      show (if row.uuid.data.isEmpty then _ else _) = _
      rw [hne]
      simp only [Bool.false_eq_true, if_false]
      rw [hu]
    · unfold Uuid.format
      rw [hfmt]
  · intro h
    obtain ⟨a, b, rest, hab⟩ : ∃ a b rest,
        (db.rows.filter fun r => likeFuzzy idPart r.uuid) = a :: b :: rest := by
      cases hl : db.rows.filter fun r => likeFuzzy idPart r.uuid with
      | nil => rw [hl] at h; simp at h
      | cons a tl =>
        cases hl2 : tl with
        | nil => rw [hl, hl2] at h; simp at h
        | cons b rest => exact ⟨a, b, rest, rfl⟩
    unfold search_attachment_uuid search_query
    rw [hab]
    rfl
  · unfold search_query
    rw [List.length_take]
    omega

/-- A second stored row, so that an ambiguous partial exists. -/
def rowB : Row :=
  { rowid := 2, uuid := "9cfc5a2d-2946-48ee-82e0-227ba4bcdbd6",
    snip_uuid := uuidStr0, timestamp := "t", name := "g",
    data := [], size := 0 }

/-- A table holding `row0` and `rowB`. -/
def dbTwo : DB := { rows := [row0, rowB], nextRowid := 3 }

/-- Witness for C2: on a two-row collection the partial "2946" is matched by
both stored identifiers and fails with `UuidMultipleMatches`. -/
theorem search_trichotomy_witness :
    search_attachment_uuid dbTwo "2946" = .error (.UuidMultipleMatches
      ("provided partial " ++ "2946" ++ " returned multiple attachment uuids")) :=
  (search_trichotomy dbTwo "2946"
    (fun r hr => by
      fin_cases hr
      · exact ⟨uuidVal0, by rfl⟩
      · exact ⟨[9, 12, 15, 12, 5, 10, 2, 13, 2, 9, 4, 6, 4, 8, 14, 14,
          8, 2, 14, 0, 2, 2, 7, 11, 10, 4, 11, 12, 13, 11, 13, 6], by rfl⟩)).2.2.1
    (by rfl)

/-- C3 as stated is false: the LIKE filter is not plain substring
containment for every partial string — the partial "_" is not a substring
of the stored canonical identifier, yet SQLite LIKE treats it as a
one-character wildcard, so the resolver matches the lone stored identifier
and returns it instead of failing with NotFound. -/
theorem c3_counterexample :
    substringOf ("_".data) (uuidStr0.data) = false ∧
    search_attachment_uuid db0 "_" = .ok uuidVal0 := by
  constructor
  · rfl
  · rfl

/-- C3 amended: for partial strings free of LIKE wildcards (`%`, `_`) and
ASCII-uppercase letters, and stored strings free of uppercase letters (the
canonical identifier form is lowercase), the LIKE filter coincides with
substring containment anywhere in the canonical form; and the
separator-spanning fragment "d-2946" resolves uniquely to the stored
identifier `9cfc5a2d-2946-48ee-82e0-227ba4bcdbd5`. -/
theorem like_substring_amended :
    (∀ p s : String, (∀ c ∈ p.data, c ≠ '%' ∧ c ≠ '_') →
      (∀ c ∈ p.data, asciiLower c = c) → (∀ c ∈ s.data, asciiLower c = c) →
      likeFuzzy p s = substringOf p.data s.data) ∧
    search_attachment_uuid db0 "d-2946" = .ok uuidVal0 := by
  constructor
  · intro p s h1 h2 h3
    exact likeFuzzy_eq_substring p.data s.data h1 h2 h3
  · rfl

/-- Witness for C3's amended equivalence at the separator-spanning fragment
of the spec's scenario. -/
theorem like_substring_amended_witness :
    likeFuzzy "d-2946" uuidStr0 = substringOf ("d-2946".data) (uuidStr0.data) :=
  like_substring_amended.1 "d-2946" uuidStr0 (by decide) (by decide) (by decide)

/-! ## C1 -/

theorem blob_write_at_fill (b : List Nat) :
    blob_write_at (List.replicate b.length 0) b 0 = some b := by
  unfold blob_write_at
  simp

/-- The metadata row `add_attachment` inserts, its payload still the
`ZEROBLOB(size)` placeholder. -/
def zeroRow (snipU u : Uuid) (nm ts : String) (b : List Nat) (db : DB) :
    Row :=
  { rowid := db.nextRowid, uuid := Uuid.format u,
    snip_uuid := Uuid.format snipU, timestamp := ts, name := nm,
    data := List.replicate b.length 0, size := b.length }

/-- The same row after the positional blob write of the payload. -/
def writtenRow (snipU u : Uuid) (nm ts : String) (b : List Nat) (db : DB) :
    Row :=
  { rowid := db.nextRowid, uuid := Uuid.format u,
    snip_uuid := Uuid.format snipU, timestamp := ts, name := nm,
    data := b, size := b.length }

/-- The store state after a successful `add_attachment`. -/
def addedDB (snipU u : Uuid) (nm ts : String) (b : List Nat) (db : DB) :
    DB :=
  { rows := db.rows ++ [writtenRow snipU u nm ts b db],
    nextRowid := db.nextRowid + 1 }

theorem add_attachment_some_eq (snipU u : Uuid) (nm ts : String)
    (b : List Nat) (db : DB) (hwf : DBWf db) :
    add_attachment snipU (some nm) (some b) u ts db =
      (.ok (addedDB snipU u nm ts b db), ["INSERT", "BLOB_WRITE"]) := by
  have hbeqf : ∀ r ∈ db.rows, (r.rowid == db.nextRowid) = false := by
    intro r hr
    have := hwf r hr
    simp only [beq_eq_false_iff_ne, ne_eq]
    omega
  have hfind : ((db.rows ++ [zeroRow snipU u nm ts b db]).find?
        fun r => r.rowid == db.nextRowid) =
      some (zeroRow snipU u nm ts b db) := by
    rw [find?_append_of_none _ _ _ hbeqf]
    simp [List.find?_cons, zeroRow]
  have hmap : ((db.rows ++ [zeroRow snipU u nm ts b db]).map
        fun r2 => if r2.rowid == db.nextRowid then { r2 with data := b }
          else r2) =
      db.rows ++ [writtenRow snipU u nm ts b db] := by
    rw [List.map_append]
    rw [map_eq_self db.rows _ fun x hx => by simp [hbeqf x hx]]
    simp [zeroRow, writtenRow]
  unfold zeroRow at hfind hmap
  unfold writtenRow at hmap
  simp only [add_attachment, db_blob_write, addedDB, writtenRow, hfind,
    blob_write_at_fill, hmap]

/-- C1: attachment byte-fidelity — adding a file with byte contents `b`
under a fresh identifier succeeds, leaves exactly one row (and with it one
payload blob) for that identifier, and reading the identifier back yields
an `Attachment` whose `data` equals `b` byte for byte and whose `size` is
the length of `b`. The freshly generated identifier, the serialized
timestamp and the file contents are parameters; the hypotheses state that
the identifier is fresh (128-bit random generation), the rowids are
SQLite-wellformed and the stored timestamp text parses back. -/
theorem add_attachment_fidelity (db : DB) (snipU u : Uuid)
    (nm ts : String) (b : List Nat) (rfc : String → Option Nat) (t : Nat)
    (hwf : DBWf db)
    (hfresh : ∀ r ∈ db.rows, r.uuid ≠ Uuid.format u)
    (hu : UuidValid u) (hsu : UuidValid snipU)
    (hts : rfc ts = some t) :
    ∃ db2, (add_attachment snipU (some nm) (some b) u ts db).1 = .ok db2 ∧
      countUuid db2 (Uuid.format u) = 1 ∧
      ∃ a, get_attachment_from_uuid rfc db2 u = .ok a ∧
        a.data = b ∧ a.size = b.length := by
  have hbeqf : ∀ r ∈ db.rows, (r.rowid == db.nextRowid) = false := by
    intro r hr
    have := hwf r hr
    simp only [beq_eq_false_iff_ne, ne_eq]
    omega
  have hbequf : ∀ r ∈ db.rows, (r.uuid == Uuid.format u) = false := by
    intro r hr
    simp only [beq_eq_false_iff_ne, ne_eq]
    exact hfresh r hr
  have hfilter : ((addedDB snipU u nm ts b db).rows.filter
        fun r => r.uuid == Uuid.format u) =
      [writtenRow snipU u nm ts b db] := by
    simp only [addedDB]
    rw [List.filter_append, filter_false_of db.rows _ hbequf]
    simp [writtenRow]
  have hdata : attachment_data_from_db (addedDB snipU u nm ts b db)
      ((writtenRow snipU u nm ts b db).rowid) = .ok b := by
    unfold attachment_data_from_db
    simp only [addedDB]
    rw [find?_append_of_none _ _ _ (by
      intro x hx
      simp only [writtenRow]
      exact hbeqf x hx)]
    simp [List.find?_cons, writtenRow]
  refine ⟨addedDB snipU u nm ts b db,
    by rw [add_attachment_some_eq snipU u nm ts b db hwf], ?_, ?_⟩
  · unfold countUuid
    rw [hfilter]
    rfl
  · unfold get_attachment_from_uuid
    simp only [hfilter, hdata]
    unfold attachment_from_db Uuid.parse_str
    rw [show (writtenRow snipU u nm ts b db).uuid = Uuid.format u from rfl]
    rw [show (writtenRow snipU u nm ts b db).snip_uuid =
      Uuid.format snipU from rfl]
    rw [show (writtenRow snipU u nm ts b db).timestamp = ts from rfl]
    rw [format_data_eq u, format_data_eq snipU]
    rw [parse_chars_format u hu, parse_chars_format snipU hsu, hts]
    exact ⟨_, rfl, rfl, rfl⟩

/-- Witness for C1: attaching the bytes [1,2,3] to an empty store under a
concrete fresh identifier and reading them back. -/
theorem add_attachment_fidelity_witness :
    ∃ db2, (add_attachment uuidVal0 (some "udhr.pdf") (some [1, 2, 3])
        uuidVal0 "2023-01-01T00:00:00+00:00"
        { rows := [], nextRowid := 1 }).1 = .ok db2 ∧
      countUuid db2 (Uuid.format uuidVal0) = 1 ∧
      ∃ a, get_attachment_from_uuid
          (fun s => if s = "2023-01-01T00:00:00+00:00" then some 7 else none)
          db2 uuidVal0 = .ok a ∧
        a.data = [1, 2, 3] ∧ a.size = [1, 2, 3].length :=
  add_attachment_fidelity { rows := [], nextRowid := 1 } uuidVal0 uuidVal0
    "udhr.pdf" "2023-01-01T00:00:00+00:00" [1, 2, 3]
    (fun s => if s = "2023-01-01T00:00:00+00:00" then some 7 else none) 7
    (by decide) (by decide) (by decide) (by decide) (by decide)

end SnipRs
